import Mathlib

/-!
# jackmidiclockinput: the JACK process callback of `src/main.cpp`

A shallow embedding of the real-time callback registered with
`jack_set_process_callback` (main.cpp lines 99-241): the MIDI event switch
(lines 116-214) followed by the audio output loop (lines 217-238).

Conventions of the embedding.

* `bar`, `beat`, `tick` are `std::atomic<int32_t>`; they are `Int` here and
  every increment is wrapped by `wrap32` (atomic arithmetic on signed
  integers is two's complement and never undefined).
* `uint64_t` and `jack_nframes_t` (`uint32_t`) values are `Nat`, with an
  explicit `% 2 ^ 64` / `% 2 ^ 32` at each operation that can wrap.
* `double` is a type parameter `F` together with the operations the callback
  uses, collected in `DoubleArith`; the callback is translated expression by
  expression over these operations and nothing is assumed about rounding.
  `exactArith` instantiates them with exact rational arithmetic and
  `binary64` with IEEE 754 double precision, round to nearest, ties to even,
  the arithmetic of `double` on the platforms JACK runs on.
* The audio samples are `float`s of the form `k / 512 - 1` with `k < 512`;
  the conversion of `k`, the division by the power of two `512.f` and the
  subtraction of `1.f` are all exact in binary32, so a sample is the rational
  number it denotes.
* `ring-buffer.h` is not part of the sources; `ring_buffer` is modelled from
  the specification's description of the moving-average filter.
* The branch guarded by `if (false && ...)` (lines 146-173) never runs and is
  left out together with `lastTimebaseCallback`, which only it uses.
-/

namespace JackMidiClockInput

/-! ## Machine integers -/

/-- Two's complement wrap-around of an integer into the range of `int32_t`. -/
def wrap32 (x : Int) : Int := (x + 2 ^ 31) % 2 ^ 32 - 2 ^ 31

/-! ## Double arithmetic -/

/-- The operations on `double` that the callback uses.  `ofNat` converts an
unsigned integer (or an integer literal) to `double`, `ofInt` converts an
`int`, `toInt` is the conversion `int(x)`. -/
structure DoubleArith (F : Type) where
  ofNat : Nat → F
  ofInt : Int → F
  toInt : F → Int
  add : F → F → F
  mul : F → F → F
  div : F → F → F

/-- Exact rational arithmetic; `int(x)` truncates toward zero. -/
def exactArith : DoubleArith ℚ where
  ofNat := fun n => (n : ℚ)
  ofInt := fun z => (z : ℚ)
  toInt := fun q => Int.tdiv q.num q.den
  add := fun a b => a + b
  mul := fun a b => a * b
  div := fun a b => a / b

/-- Rounding of a rational to the nearest integer, ties to the even one. -/
def roundHalfEven (x : ℚ) : ℤ :=
  if x - ⌊x⌋ < 1 / 2 then ⌊x⌋
  else if 1 / 2 < x - ⌊x⌋ then ⌊x⌋ + 1
  else if ⌊x⌋ % 2 = 0 then ⌊x⌋ else ⌊x⌋ + 1

/-- The exponent of the unit in the last place of the binary64 numbers of the
size of `q`: the significand `|q| / 2 ^ ulpExp q` lies in [2^52, 2^53). -/
def ulpExp (q : ℚ) : ℤ := Int.log 2 |q| - 52

/-- Rounding of a rational to binary64: to the nearest number with a 53-bit
significand, ties to the even significand.  The exponent range is not
modelled: no value computed by the callback from a non-zero interval
overflows or is subnormal. -/
def roundBinary64 (q : ℚ) : ℚ :=
  if q = 0 then 0 else (roundHalfEven (q / 2 ^ ulpExp q) : ℚ) * 2 ^ ulpExp q

/-- Truncation toward zero, the conversion `int(x)` of a value in range. -/
def truncate (q : ℚ) : ℤ := if 0 ≤ q then ⌊q⌋ else ⌈q⌉

/-- IEEE 754 double precision arithmetic on the finite values: every
operation and every conversion from an integer returns the exact result
rounded by `roundBinary64`.  Infinities and NaN are not represented, so a
division by zero is outside this instance. -/
def binary64 : DoubleArith ℚ where
  ofNat := fun n => roundBinary64 (n : ℚ)
  ofInt := fun z => roundBinary64 (z : ℚ)
  toInt := truncate
  add := fun a b => roundBinary64 (a + b)
  mul := fun a b => roundBinary64 (a * b)
  div := fun a b => roundBinary64 (a / b)

/-! ## The moving-average filter -/

/-- Modelled from the spec: `ring_buffer<double, 10>` of `ring-buffer.h`, which
is not among the sources.  A fixed array of ten slots, the index of the
logical next slot and the fill count; a push writes the next slot, which once
the buffer is full is the oldest sample. -/
structure ring_buffer (F : Type) where
  slots : List F
  next : Nat
  count : Nat
deriving DecidableEq, Repr

namespace ring_buffer

/-- Modelled from the spec: the capacity K of the filter. -/
def capacity : Nat := 10

/-- Modelled from the spec: a freshly constructed buffer, no sample held; the
ten slots hold the value `fill` until they are written. -/
def empty {F : Type} (fill : F) : ring_buffer F :=
  { slots := List.replicate capacity fill, next := 0, count := 0 }

/-- Modelled from the spec: `push_back`, insertion at the logical next slot,
overwriting the oldest sample once the buffer is full. -/
def push_back {F : Type} (b : ring_buffer F) (v : F) : ring_buffer F :=
  { slots := b.slots.set b.next v
    next := (b.next + 1) % capacity
    count := if b.count < capacity then b.count + 1 else capacity }

/-- Modelled from the spec: the slot index of the oldest held sample. -/
def oldest {F : Type} (b : ring_buffer F) : Nat :=
  (b.next + capacity - b.count) % capacity

/-- Modelled from the spec: the held samples in iteration order
(`cbegin` to `cend`), oldest first: `count` slots read circularly from the
oldest one. -/
def toList {F : Type} (b : ring_buffer F) : List F :=
  (b.slots.rotate b.oldest).take b.count

/-- Modelled from the spec: `size`, the number of samples currently held. -/
def size {F : Type} (b : ring_buffer F) : Nat := b.count

/-- Well-formed buffers: ten slots, the indices in range, and the next slot
right after the held samples while the buffer is filling up. -/
def WF {F : Type} (b : ring_buffer F) : Prop :=
  b.slots.length = capacity ∧ b.next < capacity ∧ b.count ≤ capacity ∧
    (b.count < capacity → b.next = b.count)

instance {F : Type} (b : ring_buffer F) : Decidable b.WF := by
  unfold WF
  infer_instance

end ring_buffer

/-! ## State of the callback -/

/-- The variables that persist between events and between callbacks: the
globals `bar`, `beat`, `tick`, `beats_per_minute` (lines 39-42) and the
function-local statics `lastClock` (line 125), `bpmBuffer` (line 140) and
`j` (line 221). -/
structure State (F : Type) where
  bar : Int
  beat : Int
  tick : Int
  beats_per_minute : F
  lastClock : Nat
  bpmBuffer : ring_buffer F
  j : Nat
deriving DecidableEq, Repr

/-- The state at program start: zero-initialised globals and statics. -/
def State.init {F : Type} (A : DoubleArith F) : State F :=
  { bar := 0, beat := 0, tick := 0, beats_per_minute := A.ofNat 0, lastClock := 0,
    bpmBuffer := ring_buffer.empty (A.ofNat 0), j := 0 }

/-- A MIDI event as delivered by `jack_midi_event_get`: the frame offset
`time` and the payload `buffer`; `size` is the number of payload bytes. -/
structure jack_midi_event_t where
  time : Nat
  buffer : List Nat
deriving DecidableEq, Repr

/-- The `size` field of an event. -/
def jack_midi_event_t.size (e : jack_midi_event_t) : Nat := e.buffer.length

/-! ## Event processing (lines 107-214) -/

/-- Line 109: `(1000000000ULL + (sample_rate/2)) / sample_rate`. -/
def sample_interval (sample_rate : Nat) : Nat :=
  ((1000000000 + sample_rate / 2) % 2 ^ 64) / sample_rate

/-- Line 138: `position.usecs + (sample_interval * in_event.time / 1000)`,
in `uint64_t`. -/
def absolute_timestamp (usecs sample_interval time : Nat) : Nat :=
  (usecs + ((sample_interval * time) % 2 ^ 64) / 1000) % 2 ^ 64

/-- Line 139: `int(60000000./(absolute_timestamp - lastClock) / 24 * 10) / 10.`;
the subtraction is in `uint64_t`. -/
def bpm {F : Type} (A : DoubleArith F) (absolute_timestamp lastClock : Nat) : F :=
  A.div
    (A.ofInt (A.toInt
      (A.mul
        (A.div
          (A.div (A.ofNat 60000000)
            (A.ofNat ((absolute_timestamp + 2 ^ 64 - lastClock) % 2 ^ 64)))
          (A.ofNat 24))
        (A.ofNat 10))))
    (A.ofNat 10)

/-- Lines 142-144: `std::accumulate(cbegin, cend, 0.) / std::size(bpmBuffer)`. -/
def average {F : Type} (A : DoubleArith F) (b : ring_buffer F) : F :=
  A.div (b.toList.foldl A.add (A.ofNat 0)) (A.ofNat b.size)

/-- Lines 175-185: the bar/beat/tick increment of a clock pulse. -/
def advance {F : Type} (s : State F) : State F :=
  let s1 := { s with tick := wrap32 (s.tick + 1) }
  if s1.tick ≥ 24 then
    let s2 := { s1 with tick := 0, beat := wrap32 (s1.beat + 1) }
    if s2.beat ≥ 4 then
      { s2 with beat := 0, bar := wrap32 (s2.bar + 1) }
    else s2
  else s1

/-- Lines 136-187: `case 248`, a clock pulse. -/
def clockPulse {F : Type} (A : DoubleArith F) (usecs sample_interval : Nat)
    (time : Nat) (s : State F) : State F :=
  let ts := absolute_timestamp usecs sample_interval time
  let buf := s.bpmBuffer.push_back (bpm A ts s.lastClock)
  advance { s with bpmBuffer := buf, beats_per_minute := average A buf, lastClock := ts }

/-- Lines 127-213: the switch on `in_event.size` and on the single byte. -/
def processEvent {F : Type} (A : DoubleArith F) (usecs sample_interval : Nat)
    (in_event : jack_midi_event_t) (s : State F) : State F :=
  match in_event.size with
  | 0 => s
  | 1 =>
    match in_event.buffer.head? with
    | some 248 => clockPulse A usecs sample_interval in_event.time s
    | some 250 => { s with bar := 0, beat := 0, tick := 0 }
    | some 252 => s
    | _ => s
  | 2 => s
  | 3 => s
  | 4 => s
  | 5 => s
  | _ => s

/-- Lines 116-214: the loop over the events of one buffer; `none` stands for
an index at which `jack_midi_event_get` failed, which is skipped. -/
def processEvents {F : Type} (A : DoubleArith F) (usecs sample_interval : Nat)
    (events : List (Option jack_midi_event_t)) (s : State F) : State F :=
  events.foldl
    (fun st ev =>
      match ev with
      | some e => processEvent A usecs sample_interval e st
      | none => st)
    s

/-! ## Audio output (lines 217-238) -/

/-- Lines 222-235: one output sample and the new value of the phase `j`. -/
def synthSample (tick : Int) (j : Nat) : ℚ × Nat :=
  if tick = 0 ∨ tick = 12 then
    let out : ℚ := ((j % 512 : Nat) : ℚ) / 512 - 1
    let j1 := (j + 1) % 2 ^ 32
    (out, if j1 ≥ 512 then 0 else j1)
  else
    (0, j)

/-- Lines 219-237: the loop filling `nframes` samples; returns the samples in
order and the final phase. -/
def synthBuffer (tick : Int) : Nat → Nat → List ℚ × Nat
  | 0, j => ([], j)
  | n + 1, j =>
    let r := synthSample tick j
    let rest := synthBuffer tick n r.2
    (r.1 :: rest.1, rest.2)

/-- Lines 99-241: one invocation of the process callback. -/
def process {F : Type} (A : DoubleArith F) (usecs sample_rate nframes : Nat)
    (events : List (Option jack_midi_event_t)) (s : State F) : State F × List ℚ :=
  let s1 := processEvents A usecs (sample_interval sample_rate) events s
  let r := synthBuffer s1.tick nframes s1.j
  ({ s1 with j := r.2 }, r.1)

/-! ## Sequences of callbacks -/

/-- What the host hands to one invocation of the callback: the buffer start
time `position.usecs`, the sample rate, the buffer length and the MIDI events
of the buffer. -/
structure Call where
  usecs : Nat
  sample_rate : Nat
  nframes : Nat
  events : List (Option jack_midi_event_t)
deriving DecidableEq, Repr

/-- The state after a sequence of invocations of the callback. -/
def run {F : Type} (A : DoubleArith F) (calls : List Call) (s : State F) : State F :=
  calls.foldl (fun st c => (process A c.usecs c.sample_rate c.nframes c.events st).1) s

/-- The number of events delivered over a sequence of invocations. -/
def eventCount (calls : List Call) : Nat :=
  (calls.map (fun c => c.events.length)).sum

/-- An entry of the event list that is a clock pulse: the single byte 0xF8. -/
def isClockPulse : Option jack_midi_event_t → Bool
  | some e => e.buffer == [248]
  | none => false

/-- Every event delivered is a clock pulse. -/
def AllClockPulses (calls : List Call) : Prop :=
  ∀ c ∈ calls, ∀ ev ∈ c.events, isClockPulse ev = true

instance (calls : List Call) : Decidable (AllClockPulses calls) := by
  unfold AllClockPulses
  infer_instance

/-- The position reached by `n` clock pulses counted from (0,0,0), with the
bar held in an `int32_t`. -/
def AtPulse {F : Type} (s : State F) (n : Nat) : Prop :=
  s.bar = wrap32 ((n / 96 : Nat) : Int) ∧ s.beat = ((n / 24 % 4 : Nat) : Int) ∧
    s.tick = ((n % 24 : Nat) : Int)

instance {F : Type} (s : State F) (n : Nat) : Decidable (AtPulse s n) := by
  unfold AtPulse
  infer_instance

/-- The callback number `i` of a steady pulse train: buffers of 1024 frames at
48 kHz start every 21333 microseconds and each delivers one clock pulse at
offset 0. -/
def pulseCallAt (i : Nat) : Call :=
  { usecs := 21333 * (i + 1), sample_rate := 48000, nframes := 1024,
    events := [some ⟨0, [248]⟩] }

/-- The first `n` callbacks of the steady pulse train. -/
def pulseTrain (n : Nat) : List Call := (List.range n).map pulseCallAt

/-! ## Reference notions used in the statements -/

/-- The last `n` elements of a list. -/
def lastN {α : Type} (n : Nat) (l : List α) : List α := l.drop (l.length - n)

/-- The arithmetic mean of a list in the arithmetic `A`: the sum taken from
the left starting at 0, divided by the number of elements. -/
def mean {F : Type} (A : DoubleArith F) (l : List F) : F :=
  A.div (l.foldl A.add (A.ofNat 0)) (A.ofNat l.length)

/-- The timestamps (line 138) of the clock pulses among the events of one
buffer, in order; other events and failed reads carry none. -/
def eventTimes (usecs sample_interval : Nat) :
    List (Option jack_midi_event_t) → List Nat
  | [] => []
  | none :: rest => eventTimes usecs sample_interval rest
  | some e :: rest =>
    if e.buffer = [248] then
      absolute_timestamp usecs sample_interval e.time :: eventTimes usecs sample_interval rest
    else eventTimes usecs sample_interval rest

/-- The timestamps of all clock pulses delivered over a sequence of
invocations, in order. -/
def pulseTimes : List Call → List Nat
  | [] => []
  | c :: cs => eventTimes c.usecs (sample_interval c.sample_rate) c.events ++ pulseTimes cs

/-- The tempo samples (line 139) of clock pulses with the given timestamps,
the first one measured against the timestamp `last` of the pulse before. -/
def tempoSamples {F : Type} (A : DoubleArith F) : Nat → List Nat → List F
  | _, [] => []
  | last, t :: ts => bpm A t last :: tempoSamples A t ts

/-- The last timestamp of a list, `last` when the list is empty. -/
def lastTime : Nat → List Nat → Nat
  | last, [] => last
  | _, t :: ts => lastTime t ts

/-- The filter variables of `s1` are those of `s` after clock pulses with the
timestamps `times`: every sample pushed in order, the last timestamp kept, and
the average published when there was a pulse. -/
def FilterTracks {F : Type} (A : DoubleArith F) (s s1 : State F) (times : List Nat) : Prop :=
  s1.bpmBuffer = (tempoSamples A s.lastClock times).foldl ring_buffer.push_back s.bpmBuffer ∧
  s1.lastClock = lastTime s.lastClock times ∧
  s1.beats_per_minute = if times = [] then s.beats_per_minute else average A s1.bpmBuffer

/-- The timestamps `t0`, `t0 + D`, ... of `n` pulses at the constant
interval `D`. -/
def steadyTimes (t0 D : Nat) : Nat → List Nat
  | 0 => []
  | n + 1 => t0 :: steadyTimes (t0 + D) D n

/-- The first `n` pulse-carrying callbacks of a pulse train of interval `D`
microseconds: callback `i` starts at time `D * (i + 1)` and delivers one
clock pulse at offset 0. -/
def steadyTrain (D n : Nat) : List Call :=
  (List.range n).map
    (fun i => { usecs := D * (i + 1), sample_rate := 48000, nframes := 1024,
                events := [some ⟨0, [248]⟩] })

/-- The relative spacing 2^-52 of binary64 numbers; a rounding changes a
value by at most half of it. -/
def relUnit : ℚ := 1 / 2 ^ 52

/-- The value `q` lies within the relative distance `k * relUnit` of `y`. -/
def Near (y q k : ℚ) : Prop := y * (1 - k * relUnit) ≤ q ∧ q ≤ y * (1 + k * relUnit)

/-! ## Lemmas on the moving-average filter -/

namespace ring_buffer

/-- Reading the `i`-th held sample of a well-formed buffer. -/
theorem getElem?_toList {F : Type} (b : ring_buffer F) (h : b.WF) (i : Nat) :
    b.toList[i]? = if i < b.count then b.slots[(i + b.oldest) % 10]? else none := by
  obtain ⟨hl, _, hc, _⟩ := h
  simp only [capacity] at hl hc
  unfold toList
  rw [List.getElem?_take]
  split
  · rw [List.getElem?_rotate (by omega), hl]
  · rfl

theorem wf_empty {F : Type} (fill : F) : (empty fill).WF := by
  simp [WF, empty, capacity]

theorem wf_push_back {F : Type} (b : ring_buffer F) (h : b.WF) (v : F) :
    (b.push_back v).WF := by
  obtain ⟨hl, hn, hc, hf⟩ := h
  simp only [capacity] at hl hn hc hf
  simp only [WF, push_back, capacity, List.length_set]
  refine ⟨hl, by omega, by split <;> omega, ?_⟩
  split
  · intro h1
    rw [hf (by omega)]
    omega
  · intro h1
    omega

/-- A push appends the sample to the held ones, dropping the oldest when the
buffer is full. -/
theorem toList_push_back {F : Type} (b : ring_buffer F) (h : b.WF) (v : F) :
    (b.push_back v).toList =
      (if b.count < capacity then b.toList else b.toList.drop 1) ++ [v] := by
  have hw := wf_push_back b h v
  have hlen : b.toList.length = b.count := by
    obtain ⟨hl, _, hc, _⟩ := h
    simp only [capacity] at hl hc
    simp [toList, List.length_take, List.length_rotate, hl, hc]
  obtain ⟨hl, hn, hc, hf⟩ := h
  simp only [capacity] at hl hn hc hf
  apply List.ext_getElem?
  intro i
  rw [getElem?_toList _ hw]
  simp only [capacity]
  by_cases hfull : b.count < 10
  · have hnext := hf hfull
    rw [if_pos hfull, List.getElem?_append, hlen, getElem?_toList b ⟨hl, hn, hc, hf⟩]
    simp only [push_back, oldest, capacity, if_pos hfull, List.getElem?_set, hl, hnext]
    rcases Nat.lt_trichotomy i b.count with h1 | h1 | h1
    · split_ifs <;> first | (exfalso; omega) | (congr 1; omega)
    · subst h1
      split_ifs <;> first | (exfalso; omega) | simp
    · have hnone : [v][i - b.count]? = none := List.getElem?_eq_none (by simp; omega)
      rw [hnone]
      split_ifs <;> first | (exfalso; omega) | rfl
  · have hcount : b.count = 10 := by omega
    rw [if_neg hfull, List.getElem?_append, List.length_drop, hlen, List.getElem?_drop,
      getElem?_toList b ⟨hl, hn, hc, hf⟩]
    simp only [push_back, oldest, capacity, List.getElem?_set, hl, hcount, Nat.lt_irrefl,
      if_false]
    rcases Nat.lt_trichotomy i 9 with h1 | h1 | h1
    · split_ifs <;> first | (exfalso; omega) | (congr 1; omega)
    · subst h1
      split_ifs <;> first | (exfalso; omega) | simp
    · have hnone : [v][i - (10 - 1)]? = none := List.getElem?_eq_none (by simp; omega)
      rw [hnone]
      split_ifs <;> first | (exfalso; omega) | rfl

end ring_buffer
/-! ## Lemmas on the position counter -/

theorem wrap32_of_range (x : Int) (h1 : -2147483648 ≤ x) (h2 : x < 2147483648) :
    wrap32 x = x := by
  unfold wrap32
  norm_num
  omega

theorem wrap32_succ_wrap32 (x : Int) : wrap32 (wrap32 x + 1) = wrap32 (x + 1) := by
  unfold wrap32
  norm_num
  omega

/-- One clock pulse moves the position from pulse `n` to pulse `n + 1`. -/
theorem advance_atPulse {F : Type} (s : State F) (n : Nat) (h : AtPulse s n) :
    AtPulse (advance s) (n + 1) := by
  obtain ⟨hbar, hbeat, htick⟩ := h
  have ht : wrap32 (s.tick + 1) = s.tick + 1 := wrap32_of_range _ (by omega) (by omega)
  have hb : wrap32 (s.beat + 1) = s.beat + 1 := wrap32_of_range _ (by omega) (by omega)
  unfold advance AtPulse
  simp only [ht, hb, ge_iff_le]
  by_cases c1 : (24 : Int) ≤ s.tick + 1
  · rw [if_pos c1]
    by_cases c2 : (4 : Int) ≤ s.beat + 1
    · rw [if_pos c2]
      refine ⟨?_, by simp only; omega, by simp only; omega⟩
      simp only [hbar, wrap32_succ_wrap32]
      congr 1
      omega
    · rw [if_neg c2]
      refine ⟨?_, by simp only; omega, by simp only; omega⟩
      simp only [hbar]
      congr 2
      omega
  · rw [if_neg c1]
    refine ⟨?_, by simp only; omega, by simp only; omega⟩
    simp only [hbar]
    congr 2
    omega

theorem clockPulse_atPulse {F : Type} (A : DoubleArith F) (usecs si time : Nat)
    (s : State F) (n : Nat) (h : AtPulse s n) :
    AtPulse (clockPulse A usecs si time s) (n + 1) := by
  unfold clockPulse
  exact advance_atPulse _ n h

theorem processEvent_clock {F : Type} (A : DoubleArith F) (usecs si time : Nat)
    (s : State F) :
    processEvent A usecs si ⟨time, [248]⟩ s = clockPulse A usecs si time s := rfl

theorem isClockPulse_iff (ev : Option jack_midi_event_t) :
    isClockPulse ev = true ↔ ∃ t, ev = some ⟨t, [248]⟩ := by
  constructor
  · intro h
    match ev, h with
    | some ⟨t, buffer⟩, h =>
      simp only [isClockPulse, beq_iff_eq] at h
      exact ⟨t, by rw [h]⟩
  · rintro ⟨t, rfl⟩
    rfl

theorem processEvents_atPulse {F : Type} (A : DoubleArith F) (usecs si : Nat)
    (events : List (Option jack_midi_event_t))
    (hev : ∀ ev ∈ events, isClockPulse ev = true) (s : State F) (n : Nat)
    (h : AtPulse s n) :
    AtPulse (processEvents A usecs si events s) (n + events.length) := by
  induction events generalizing s n with
  | nil => simpa [processEvents] using h
  | cons e rest ih =>
    obtain ⟨t, rfl⟩ := (isClockPulse_iff e).mp (hev e (List.mem_cons_self _ _))
    have hrest : ∀ ev ∈ rest, isClockPulse ev = true :=
      fun ev hm => hev ev (List.mem_cons_of_mem _ hm)
    have step := clockPulse_atPulse A usecs si t s n h
    have := ih hrest (clockPulse A usecs si t s) (n + 1) step
    simp only [processEvents, List.foldl_cons, List.length_cons] at this ⊢
    rw [processEvent_clock]
    have e : n + (rest.length + 1) = n + 1 + rest.length := by omega
    rw [e]
    exact this

theorem process_atPulse {F : Type} (A : DoubleArith F) (c : Call)
    (hev : ∀ ev ∈ c.events, isClockPulse ev = true) (s : State F) (n : Nat)
    (h : AtPulse s n) :
    AtPulse (process A c.usecs c.sample_rate c.nframes c.events s).1 (n + c.events.length) := by
  have := processEvents_atPulse A c.usecs (sample_interval c.sample_rate) c.events hev s n h
  simpa [process, AtPulse] using this

/-- Over callbacks that deliver only clock pulses the position advances by the
number of events delivered. -/
theorem run_atPulse {F : Type} (A : DoubleArith F) (calls : List Call)
    (hp : AllClockPulses calls) (s : State F) (n : Nat) (h : AtPulse s n) :
    AtPulse (run A calls s) (n + eventCount calls) := by
  induction calls generalizing s n with
  | nil => simpa [run, eventCount] using h
  | cons c rest ih =>
    have hc := hp c (List.mem_cons_self _ _)
    have hrest : AllClockPulses rest := fun c' hm => hp c' (List.mem_cons_of_mem _ hm)
    have step := process_atPulse A c hc s n h
    have := ih hrest _ _ step
    simp only [run, List.foldl_cons, eventCount, List.map_cons, List.sum_cons] at this ⊢
    rw [← Nat.add_assoc]
    exact this

theorem atPulse_zero {F : Type} (s : State F) (h : s.bar = 0 ∧ s.beat = 0 ∧ s.tick = 0) :
    AtPulse s 0 := by
  obtain ⟨h1, h2, h3⟩ := h
  refine ⟨?_, ?_, ?_⟩
  · rw [h1]; unfold wrap32; norm_num
  · rw [h2]; norm_num
  · rw [h3]; norm_num

theorem allClockPulses_pulseTrain (n : Nat) : AllClockPulses (pulseTrain n) := by
  intro c hc ev hev
  obtain ⟨i, _, rfl⟩ := List.mem_map.mp hc
  simp only [pulseCallAt, List.mem_singleton] at hev
  rw [hev]
  rfl

theorem eventCount_pulseTrain (n : Nat) : eventCount (pulseTrain n) = n := by
  induction n with
  | zero => rfl
  | succ k ih =>
    simp only [eventCount, pulseTrain, List.range_succ, List.map_append, List.sum_append,
      List.map_cons, List.map_nil, List.sum_cons, List.sum_nil] at ih ⊢
    rw [ih]
    rfl

/-! ## Transport position -/

/-- C1 (amended): after callbacks that deliver P clock pulses in total, starting
from position (0,0,0), beat = (P div 24) mod 4 and tick = P mod 24; bar is
P div 96 wrapped into the range of `int32_t`, hence P div 96 whenever
P < 96 * 2^31. -/
theorem position_after_pulses {F : Type} (A : DoubleArith F) (calls : List Call)
    (s : State F) (h0 : s.bar = 0 ∧ s.beat = 0 ∧ s.tick = 0)
    (hp : AllClockPulses calls) :
    (run A calls s).beat = ((eventCount calls / 24 % 4 : Nat) : Int) ∧
    (run A calls s).tick = ((eventCount calls % 24 : Nat) : Int) ∧
    (run A calls s).bar = wrap32 ((eventCount calls / 96 : Nat) : Int) ∧
    (eventCount calls < 96 * 2 ^ 31 →
      (run A calls s).bar = ((eventCount calls / 96 : Nat) : Int)) := by
  have h := run_atPulse A calls hp s 0 (atPulse_zero s h0)
  rw [Nat.zero_add] at h
  obtain ⟨hbar, hbeat, htick⟩ := h
  refine ⟨hbeat, htick, hbar, fun hlt => ?_⟩
  rw [hbar]
  apply wrap32_of_range <;> omega

/-- Witness for C1: 97 clock pulses, one per callback, from (0,0,0) give
(1,0,1). -/
theorem position_after_pulses_witness :
    (run exactArith (pulseTrain 97) (State.init exactArith)).beat = 0 ∧
    (run exactArith (pulseTrain 97) (State.init exactArith)).tick = 1 ∧
    (run exactArith (pulseTrain 97) (State.init exactArith)).bar = 1 := by
  have h := position_after_pulses exactArith (pulseTrain 97)
    (State.init exactArith) ⟨rfl, rfl, rfl⟩ (allClockPulses_pulseTrain 97)
  rw [eventCount_pulseTrain] at h
  obtain ⟨h1, h2, _, h4⟩ := h
  exact ⟨h1, h2, h4 (by norm_num)⟩

/-- C1 as stated fails: after 96 * 2^31 clock pulses from (0,0,0) the bar
counter, an `int32_t`, has wrapped to -2^31 and is not P div 96 = 2^31. -/
theorem position_after_pulses_counterexample :
    (run exactArith (pulseTrain (96 * 2 ^ 31)) (State.init exactArith)).bar
        = -2147483648 ∧
      (run exactArith (pulseTrain (96 * 2 ^ 31)) (State.init exactArith)).bar
        ≠ ((96 * 2 ^ 31 / 96 : Nat) : Int) := by
  have h := run_atPulse exactArith (pulseTrain (96 * 2 ^ 31))
    (allClockPulses_pulseTrain _) (State.init exactArith) 0
    (atPulse_zero _ ⟨rfl, rfl, rfl⟩)
  rw [eventCount_pulseTrain, Nat.zero_add] at h
  obtain ⟨hbar, _, _⟩ := h
  have e : wrap32 ((96 * 2 ^ 31 / 96 : Nat) : Int) = -2147483648 := by
    unfold wrap32
    norm_num
  rw [e] at hbar
  refine ⟨hbar, ?_⟩
  rw [hbar]
  norm_num

/-- C2: a Start event (single byte 0xFA) sets the position to (0,0,0) whatever
the prior state, and a Start event followed in the same batch by one clock
pulse leaves the position at (0,0,1). -/
theorem start_resets_position {F : Type} (A : DoubleArith F) (usecs si t t2 : Nat)
    (s : State F) :
    ((processEvent A usecs si ⟨t, [250]⟩ s).bar = 0 ∧
      (processEvent A usecs si ⟨t, [250]⟩ s).beat = 0 ∧
      (processEvent A usecs si ⟨t, [250]⟩ s).tick = 0) ∧
    ((processEvents A usecs si [some ⟨t, [250]⟩, some ⟨t2, [248]⟩] s).bar = 0 ∧
      (processEvents A usecs si [some ⟨t, [250]⟩, some ⟨t2, [248]⟩] s).beat = 0 ∧
      (processEvents A usecs si [some ⟨t, [250]⟩, some ⟨t2, [248]⟩] s).tick = 1) := by
  refine ⟨⟨rfl, rfl, rfl⟩, ?_⟩
  have h0 : AtPulse (processEvent A usecs si ⟨t, [250]⟩ s) 0 := atPulse_zero _ ⟨rfl, rfl, rfl⟩
  have h1 := clockPulse_atPulse A usecs si t2 _ 0 h0
  obtain ⟨hbar, hbeat, htick⟩ := h1
  simp only [processEvents, List.foldl_cons, List.foldl_nil, processEvent_clock]
  refine ⟨?_, ?_, ?_⟩
  · rw [hbar]; unfold wrap32; norm_num
  · rw [hbeat]; norm_num
  · rw [htick]; norm_num

/-! ## Events without effect -/

/-- C6: a zero-length event, a Stop event (single byte 0xFC), any other single
byte different from 0xF8 and 0xFA, and any message of 2 to 5 bytes leave the
whole state unchanged: bar, beat, tick, the tempo estimate, the filter and the
last-pulse timestamp. -/
theorem other_events_no_effect {F : Type} (A : DoubleArith F) (usecs si : Nat)
    (e : jack_midi_event_t) (s : State F)
    (h : e.buffer = [] ∨ e.buffer = [252] ∨
      (∃ b, e.buffer = [b] ∧ b ≠ 248 ∧ b ≠ 250) ∨
      (2 ≤ e.buffer.length ∧ e.buffer.length ≤ 5)) :
    processEvent A usecs si e s = s ∧
    (processEvent A usecs si e s).bar = s.bar ∧
    (processEvent A usecs si e s).beat = s.beat ∧
    (processEvent A usecs si e s).tick = s.tick ∧
    (processEvent A usecs si e s).beats_per_minute = s.beats_per_minute ∧
    (processEvent A usecs si e s).bpmBuffer = s.bpmBuffer ∧
    (processEvent A usecs si e s).lastClock = s.lastClock := by
  have key : processEvent A usecs si e s = s := by
    obtain ⟨time, buffer⟩ := e
    simp only at h
    rcases h with h | h | ⟨b, h, h1, h2⟩ | ⟨h1, h2⟩
    · subst h; rfl
    · subst h; rfl
    · subst h
      simp only [processEvent, jack_midi_event_t.size, List.length_singleton, List.head?_cons]
      split <;> simp_all
    · unfold processEvent jack_midi_event_t.size
      simp only
      split <;> first | rfl | (exfalso; omega)
  rw [key]
  exact ⟨rfl, rfl, rfl, rfl, rfl, rfl, rfl⟩

/-- Witness for C6: a three-byte note-on message on the initial state. -/
theorem other_events_no_effect_witness :
    processEvent exactArith 0 20833 ⟨5, [144, 60, 100]⟩ (State.init exactArith)
      = State.init exactArith :=
  (other_events_no_effect exactArith 0 20833 ⟨5, [144, 60, 100]⟩ (State.init exactArith)
    (Or.inr (Or.inr (Or.inr ⟨by decide, by decide⟩)))).1

/-! ## Click synthesis -/

theorem ramp_ne_zero (p : Nat) : ((p % 512 : Nat) : ℚ) / 512 - 1 ≠ 0 := by
  have h : p % 512 < 512 := Nat.mod_lt _ (by norm_num)
  have hq : ((p % 512 : Nat) : ℚ) < 512 := by exact_mod_cast h
  intro hz
  have : ((p % 512 : Nat) : ℚ) / 512 < 1 := by
    rw [div_lt_one (by norm_num)]
    exact hq
  linarith

/-- C3: with the phase p in [0, 512), a sample synthesized on tick 0 or 12 is
non-zero and the phase becomes (p + 1) mod 512; on any other tick the sample
is exactly 0 and the phase is unchanged.  So the sample is non-silent exactly
on ticks 0 and 12, and the phase stays in [0, 512). -/
theorem click_only_on_click_ticks (tick : Int) (p : Nat) (hp : p < 512) :
    ((tick = 0 ∨ tick = 12) →
      (synthSample tick p).1 ≠ 0 ∧ (synthSample tick p).2 = (p + 1) % 512) ∧
    (¬ (tick = 0 ∨ tick = 12) →
      (synthSample tick p).1 = 0 ∧ (synthSample tick p).2 = p) ∧
    ((synthSample tick p).1 ≠ 0 ↔ (tick = 0 ∨ tick = 12)) ∧
    (synthSample tick p).2 < 512 := by
  by_cases h : tick = 0 ∨ tick = 12
  · have hs : synthSample tick p
        = (((p % 512 : Nat) : ℚ) / 512 - 1,
            if (p + 1) % 2 ^ 32 ≥ 512 then 0 else (p + 1) % 2 ^ 32) := by
      unfold synthSample
      rw [if_pos h]
    have hj : (if (p + 1) % 2 ^ 32 ≥ 512 then 0 else (p + 1) % 2 ^ 32) = (p + 1) % 512 := by
      norm_num
      split <;> omega
    rw [hs, hj]
    refine ⟨fun _ => ⟨ramp_ne_zero p, rfl⟩, fun hn => absurd h hn,
      ⟨fun _ => h, fun _ => ramp_ne_zero p⟩, Nat.mod_lt _ (by norm_num)⟩
  · have hs : synthSample tick p = (0, p) := by
      unfold synthSample
      rw [if_neg h]
    rw [hs]
    exact ⟨fun hc => absurd hc h, fun _ => ⟨rfl, rfl⟩,
      ⟨fun hne => absurd rfl hne, fun hc => absurd hc h⟩, hp⟩

/-- Witness for C3: tick 12 at phase 511 gives the sample -1/512 and wraps the
phase to 0. -/
theorem click_only_on_click_ticks_witness :
    (synthSample 12 511).1 ≠ 0 ∧ (synthSample 12 511).2 = (511 + 1) % 512 :=
  (click_only_on_click_ticks 12 511 (by decide)).1 (Or.inr rfl)

/-- C7 (amended): on a click tick the sample is (p mod 512)/512 - 1 for every
phase p, so the ramp ranges over [-1, 0). -/
theorem ramp_sample_value (tick : Int) (p : Nat) (h : tick = 0 ∨ tick = 12) :
    (synthSample tick p).1 = ((p % 512 : Nat) : ℚ) / 512 - 1 ∧
    -1 ≤ (synthSample tick p).1 ∧ (synthSample tick p).1 < 0 := by
  have hs : (synthSample tick p).1 = ((p % 512 : Nat) : ℚ) / 512 - 1 := by
    unfold synthSample
    rw [if_pos h]
  have hlt : p % 512 < 512 := Nat.mod_lt _ (by norm_num)
  have hq : ((p % 512 : Nat) : ℚ) < 512 := by exact_mod_cast hlt
  have h0 : (0 : ℚ) ≤ ((p % 512 : Nat) : ℚ) := Nat.cast_nonneg _
  have h1 : ((p % 512 : Nat) : ℚ) / 512 < 1 := by
    rw [div_lt_one (by norm_num)]
    exact hq
  have h2 : (0 : ℚ) ≤ ((p % 512 : Nat) : ℚ) / 512 := div_nonneg h0 (by norm_num)
  rw [hs]
  exact ⟨rfl, by linarith, by linarith⟩

/-- Witness for C7: tick 0 at phase 1. -/
theorem ramp_sample_value_witness :
    (synthSample 0 1).1 = ((1 % 512 : Nat) : ℚ) / 512 - 1 ∧
    -1 ≤ (synthSample 0 1).1 ∧ (synthSample 0 1).1 < 0 :=
  ramp_sample_value 0 1 (Or.inl rfl)

/-- C7 as stated fails: on tick 0 at phase 1 the sample is -511/512, not
(1 mod 512)/512 * 2 - 1 = -510/512. -/
theorem ramp_sample_value_counterexample :
    (synthSample 0 1).1 = -511 / 512 ∧
    (synthSample 0 1).1 ≠ ((1 % 512 : Nat) : ℚ) / 512 * 2 - 1 := by
  have hs : (synthSample 0 1).1 = -511 / 512 := by
    simp [synthSample]
    norm_num
  rw [hs]
  refine ⟨rfl, ?_⟩
  norm_num

/-! ## Pulse timestamps -/

theorem sample_interval_eq (rate : Nat) (hr32 : rate < 2 ^ 32) :
    sample_interval rate = (1000000000 + rate / 2) / rate := by
  unfold sample_interval
  rw [Nat.mod_eq_of_lt]
  norm_num at hr32 ⊢
  omega

theorem sample_interval_le (rate : Nat) (hr32 : rate < 2 ^ 32) :
    sample_interval rate ≤ 3147483647 := by
  rw [sample_interval_eq rate hr32]
  calc (1000000000 + rate / 2) / rate ≤ 1000000000 + rate / 2 := Nat.div_le_self _ _
    _ ≤ 3147483647 := by norm_num at hr32; omega

/-- C9 (amended): for a 32-bit sample rate > 0, a 32-bit event offset and any
buffer start time, the timestamp of a clock pulse is
(bufferStartTime + (sampleInterval * offset) div 1000) mod 2^64 with
sampleInterval = (1000000000 + rate div 2) div rate: the offset is converted
from nanoseconds to microseconds and the sum is a `uint64_t`. -/
theorem absolute_timestamp_value (usecs rate time : Nat) (_hr : 0 < rate)
    (hr32 : rate < 2 ^ 32) (ht : time < 2 ^ 32) :
    absolute_timestamp usecs (sample_interval rate) time =
      (usecs + ((1000000000 + rate / 2) / rate) * time / 1000) % 2 ^ 64 := by
  have hle := sample_interval_le rate hr32
  have hprod : sample_interval rate * time < 2 ^ 64 := by
    calc sample_interval rate * time ≤ 3147483647 * 4294967295 :=
          Nat.mul_le_mul hle (by norm_num at ht; omega)
      _ < 2 ^ 64 := by norm_num
  unfold absolute_timestamp
  rw [Nat.mod_eq_of_lt hprod, sample_interval_eq rate hr32]

/-- Witness for C9: 48 kHz, offset 48 frames, buffer start 1000000. -/
theorem absolute_timestamp_value_witness :
    absolute_timestamp 1000000 (sample_interval 48000) 48 =
      (1000000 + ((1000000000 + 48000 / 2) / 48000) * 48 / 1000) % 2 ^ 64 :=
  absolute_timestamp_value 1000000 48000 48 (by decide) (by decide) (by decide)

/-- C9 as stated fails: at 48 kHz the sample interval is 20833, and a pulse at
offset 1 in a buffer starting at 0 gets the timestamp 20, not 0 + 20833 * 1;
a pulse at offset 48 in a buffer starting at 2^64 - 1 gets the timestamp 998. -/
theorem absolute_timestamp_value_counterexample :
    sample_interval 48000 = 20833 ∧
    absolute_timestamp 0 (sample_interval 48000) 1 = 20 ∧
    absolute_timestamp 0 (sample_interval 48000) 1 ≠ 0 + sample_interval 48000 * 1 ∧
    absolute_timestamp (2 ^ 64 - 1) (sample_interval 48000) 48 = 998 ∧
    absolute_timestamp (2 ^ 64 - 1) (sample_interval 48000) 48
      ≠ (2 ^ 64 - 1) + sample_interval 48000 * 48 := by
  decide

/-- C10: for a 32-bit sample rate r > 0 the sample interval computed with
integer division is 1000000000 / r rounded to the nearest integer, ties
rounded up, that is the floor of 1000000000 / r + 1/2. -/
theorem sample_interval_rounds_half_up (r : Nat) (hr : 0 < r) (hr32 : r < 2 ^ 32) :
    ((sample_interval r : Nat) : Int) = ⌊(1000000000 : ℚ) / (r : ℚ) + 1 / 2⌋ := by
  rw [sample_interval_eq r hr32]
  symm
  rw [Int.floor_eq_iff]
  have hrq : (0 : ℚ) < (r : ℚ) := by exact_mod_cast hr
  set q := (1000000000 + r / 2) / r with hq
  have h1 : q * r ≤ 1000000000 + r / 2 := Nat.div_mul_le_self _ _
  have h2 : 1000000000 + r / 2 < (q + 1) * r := by
    have := Nat.lt_succ_iff.mpr (le_refl ((1000000000 + r / 2) / r))
    exact (Nat.div_lt_iff_lt_mul hr).mp this
  have h3 : 2 * (r / 2) ≤ r := by omega
  have h4 : r ≤ 2 * (r / 2) + 1 := by omega
  have h1q : (q : ℚ) * r ≤ 1000000000 + ((r / 2 : Nat) : ℚ) := by exact_mod_cast h1
  have h2q : (1000000000 : ℚ) + ((r / 2 : Nat) : ℚ) + 1 ≤ ((q : ℚ) + 1) * r := by
    exact_mod_cast h2
  have h3q : 2 * ((r / 2 : Nat) : ℚ) ≤ r := by exact_mod_cast h3
  have h4q : (r : ℚ) ≤ 2 * ((r / 2 : Nat) : ℚ) + 1 := by exact_mod_cast h4
  have key : (1000000000 : ℚ) / r + 1 / 2 = (2000000000 + r) / (2 * r) := by
    field_simp
    ring
  rw [key]
  push_cast
  constructor
  · rw [le_div_iff₀ (by positivity)]
    nlinarith
  · rw [div_lt_iff₀ (by positivity)]
    nlinarith

/-- Witness for C10: at 48 kHz the interval is 20833 = floor(20833.33 + 0.5). -/
theorem sample_interval_rounds_half_up_witness :
    ((sample_interval 48000 : Nat) : Int) = ⌊(1000000000 : ℚ) / ((48000 : Nat) : ℚ) + 1 / 2⌋ :=
  sample_interval_rounds_half_up 48000 (by decide) (by decide)

/-! ## Tempo smoothing -/

theorem foldl_add_exact (l : List ℚ) (a : ℚ) : l.foldl exactArith.add a = a + l.sum := by
  induction l generalizing a with
  | nil => simp
  | cons x xs ih =>
    rw [List.foldl_cons, ih, List.sum_cons]
    simp only [exactArith]
    ring

/-- In exact arithmetic `mean` is the sum divided by the number of elements. -/
theorem mean_exactArith (l : List ℚ) : mean exactArith l = l.sum / (l.length : ℚ) := by
  unfold mean
  rw [foldl_add_exact]
  simp [exactArith]

theorem average_eq_mean {F : Type} (A : DoubleArith F) (b : ring_buffer F) (h : b.WF) :
    average A b = mean A b.toList := by
  have hlen : b.toList.length = b.count := by
    obtain ⟨hl, _, hc, _⟩ := h
    simp only [ring_buffer.capacity] at hl hc
    simp [ring_buffer.toList, List.length_take, List.length_rotate, hl, hc]
  unfold average mean ring_buffer.size
  rw [hlen]

/-- Every clock pulse pushes its sample and publishes the average. -/
theorem clockPulse_filter {F : Type} (A : DoubleArith F) (usecs si time : Nat) (s : State F) :
    (clockPulse A usecs si time s).bpmBuffer
      = s.bpmBuffer.push_back (bpm A (absolute_timestamp usecs si time) s.lastClock) ∧
    (clockPulse A usecs si time s).beats_per_minute
      = average A (clockPulse A usecs si time s).bpmBuffer ∧
    (clockPulse A usecs si time s).lastClock = absolute_timestamp usecs si time := by
  unfold clockPulse advance
  simp only
  split
  · split <;> exact ⟨rfl, rfl, rfl⟩
  · exact ⟨rfl, rfl, rfl⟩

/-- C8 (amended): a clock pulse whose timestamp equals the last pulse's (interval
0) is not skipped: the sample computed from the zero interval is pushed into
the filter like any other, after the held ones and evicting the oldest when
the filter is full, and the tempo estimate is recomputed as the average of the
filter. -/
theorem zero_interval_pulse_is_pushed {F : Type} (A : DoubleArith F) (usecs si time : Nat)
    (s : State F) (hw : s.bpmBuffer.WF)
    (hz : absolute_timestamp usecs si time = s.lastClock) :
    (processEvent A usecs si ⟨time, [248]⟩ s).bpmBuffer
      = s.bpmBuffer.push_back (bpm A s.lastClock s.lastClock) ∧
    (processEvent A usecs si ⟨time, [248]⟩ s).bpmBuffer.toList
      = (if s.bpmBuffer.count < 10 then s.bpmBuffer.toList else s.bpmBuffer.toList.drop 1)
          ++ [bpm A s.lastClock s.lastClock] ∧
    (processEvent A usecs si ⟨time, [248]⟩ s).beats_per_minute
      = average A (processEvent A usecs si ⟨time, [248]⟩ s).bpmBuffer := by
  obtain ⟨h1, h2, _⟩ := clockPulse_filter A usecs si time s
  rw [processEvent_clock]
  rw [hz] at h1
  refine ⟨h1, ?_, h2⟩
  rw [h1, ring_buffer.toList_push_back _ hw]
  rfl

/-- Witness for C8: after a first pulse at offset 0 of a buffer starting at
time 5000, a second pulse at the same offset has the same timestamp and is
pushed. -/
theorem zero_interval_pulse_is_pushed_witness :
    (processEvent exactArith 5000 20833 ⟨0, [248]⟩
      (processEvent exactArith 5000 20833 ⟨0, [248]⟩ (State.init exactArith))).bpmBuffer
      = (processEvent exactArith 5000 20833 ⟨0, [248]⟩
          (State.init exactArith)).bpmBuffer.push_back (bpm exactArith 5000 5000) :=
  (zero_interval_pulse_is_pushed exactArith 5000 20833 0
    (processEvent exactArith 5000 20833 ⟨0, [248]⟩ (State.init exactArith))
    (by decide) (by decide)).1

/-- C8 as stated fails: two clock pulses at offset 0 of the same buffer have
the same timestamp 5000, and the second one still raises the number of samples
held by the filter from 1 to 2. -/
theorem zero_interval_pulse_counterexample :
    absolute_timestamp 5000 20833 0
      = (processEvent exactArith 5000 20833 ⟨0, [248]⟩ (State.init exactArith)).lastClock ∧
    (processEvent exactArith 5000 20833 ⟨0, [248]⟩ (State.init exactArith)).bpmBuffer.size = 1 ∧
    (processEvent exactArith 5000 20833 ⟨0, [248]⟩
      (processEvent exactArith 5000 20833 ⟨0, [248]⟩ (State.init exactArith))).bpmBuffer.size
        = 2 ∧
    (processEvent exactArith 5000 20833 ⟨0, [248]⟩
      (processEvent exactArith 5000 20833 ⟨0, [248]⟩ (State.init exactArith))).bpmBuffer
        ≠ (processEvent exactArith 5000 20833 ⟨0, [248]⟩ (State.init exactArith)).bpmBuffer := by
  refine ⟨by decide, by decide, by decide, fun h => ?_⟩
  have hc := congrArg ring_buffer.size h
  revert hc
  decide

/-! ## The filter over a run of the callback -/

namespace ring_buffer

theorem length_toList {F : Type} (b : ring_buffer F) (h : b.WF) : b.toList.length = b.count := by
  obtain ⟨hl, _, hc, _⟩ := h
  simp only [capacity] at hl hc
  simp [toList, List.length_take, List.length_rotate, hl, hc]

/-- The samples held after pushing `xs` into a well-formed buffer are the last
ten of the samples held before followed by `xs`. -/
theorem toList_foldl_push_back_wf {F : Type} (b : ring_buffer F) (h : b.WF) (xs : List F) :
    (xs.foldl push_back b).WF ∧
    (xs.foldl push_back b).count = min (b.count + xs.length) capacity ∧
    (xs.foldl push_back b).toList = lastN capacity (b.toList ++ xs) := by
  have hlen := length_toList b h
  have hcap : b.count ≤ 10 := h.2.2.1
  induction xs using List.reverseRecOn with
  | nil =>
    refine ⟨h, ?_, ?_⟩
    · simp only [List.foldl_nil, List.length_nil, capacity]
      omega
    · simp only [List.foldl_nil, List.append_nil, lastN, hlen, capacity]
      have e : b.count - 10 = 0 := by omega
      rw [e, List.drop_zero]
  | append_singleton ys v ih =>
    obtain ⟨hw, hc, ht⟩ := ih
    rw [List.foldl_append, List.foldl_cons, List.foldl_nil]
    refine ⟨wf_push_back _ hw v, ?_, ?_⟩
    · simp only [push_back, hc, capacity, List.length_append, List.length_singleton]
      split <;> omega
    · have hL : (b.toList ++ ys).length = b.count + ys.length := by
        rw [List.length_append, hlen]
      rw [toList_push_back _ hw, hc, ht, ← List.append_assoc]
      generalize b.toList ++ ys = L at hL
      simp only [lastN, capacity, List.length_append, List.length_singleton, List.drop_drop, hL]
      by_cases hlt : b.count + ys.length < 10
      · rw [if_pos (by omega)]
        have e1 : b.count + ys.length - 10 = 0 := by omega
        have e2 : b.count + ys.length + 1 - 10 = 0 := by omega
        rw [e1, e2, List.drop_zero, List.drop_zero]
      · rw [if_neg (by omega), List.drop_append_of_le_length (by omega)]
        have e1 : b.count + ys.length - 10 + 1 = b.count + ys.length + 1 - 10 := by omega
        rw [e1]

end ring_buffer

theorem lastN_append_length {α : Type} (l1 l2 : List α) : lastN l2.length (l1 ++ l2) = l2 := by
  unfold lastN
  have e : (l1 ++ l2).length - l2.length = l1.length := by
    rw [List.length_append]
    omega
  rw [e, List.drop_left]

theorem tempoSamples_append {F : Type} (A : DoubleArith F) (last : Nat) (t1 t2 : List Nat) :
    tempoSamples A last (t1 ++ t2)
      = tempoSamples A last t1 ++ tempoSamples A (lastTime last t1) t2 := by
  induction t1 generalizing last with
  | nil => rfl
  | cons t ts ih =>
    show tempoSamples A last (t :: (ts ++ t2)) = _
    rw [tempoSamples, ih]
    rfl

theorem lastTime_append (last : Nat) (t1 t2 : List Nat) :
    lastTime last (t1 ++ t2) = lastTime (lastTime last t1) t2 := by
  induction t1 generalizing last with
  | nil => rfl
  | cons t ts ih =>
    show lastTime last (t :: (ts ++ t2)) = _
    rw [lastTime, ih]
    rfl

theorem filterTracks_refl {F : Type} (A : DoubleArith F) (s s1 : State F)
    (h1 : s1.bpmBuffer = s.bpmBuffer) (h2 : s1.lastClock = s.lastClock)
    (h3 : s1.beats_per_minute = s.beats_per_minute) : FilterTracks A s s1 [] :=
  ⟨h1, h2, by rw [if_pos rfl]; exact h3⟩

theorem filterTracks_trans {F : Type} (A : DoubleArith F) (s s1 s2 : State F)
    (t1 t2 : List Nat) (h1 : FilterTracks A s s1 t1) (h2 : FilterTracks A s1 s2 t2) :
    FilterTracks A s s2 (t1 ++ t2) := by
  obtain ⟨a1, a2, a3⟩ := h1
  obtain ⟨b1, b2, b3⟩ := h2
  refine ⟨?_, ?_, ?_⟩
  · rw [b1, a1, a2, tempoSamples_append, List.foldl_append]
  · rw [b2, a2, lastTime_append]
  · rw [b3]
    by_cases e2 : t2 = []
    · subst e2
      rw [if_pos rfl, a3, List.append_nil]
      have hb : s2.bpmBuffer = s1.bpmBuffer := by
        rw [b1]
        rfl
      rw [hb]
    · rw [if_neg e2, if_neg (by simp [e2])]

theorem filterTracks_clockPulse {F : Type} (A : DoubleArith F) (usecs si time : Nat)
    (s : State F) :
    FilterTracks A s (clockPulse A usecs si time s) [absolute_timestamp usecs si time] := by
  obtain ⟨h1, h2, h3⟩ := clockPulse_filter A usecs si time s
  refine ⟨?_, ?_, ?_⟩
  · rw [h1]
    rfl
  · rw [h3]
    rfl
  · rw [if_neg (by simp)]
    exact h2

/-- An event that is not a clock pulse leaves the filter variables alone. -/
theorem processEvent_filter_frame {F : Type} (A : DoubleArith F) (usecs si : Nat)
    (e : jack_midi_event_t) (s : State F) (h : e.buffer ≠ [248]) :
    FilterTracks A s (processEvent A usecs si e s) [] := by
  obtain ⟨time, buffer⟩ := e
  simp only at h
  unfold processEvent jack_midi_event_t.size
  simp only
  split
  · exact filterTracks_refl A _ _ rfl rfl rfl
  · rename_i hlen
    split
    · rename_i hhead
      exfalso
      apply h
      match buffer, hlen, hhead with
      | [b], _, hhead =>
        simp only [List.head?_cons, Option.some.injEq] at hhead
        rw [hhead]
    · exact filterTracks_refl A _ _ rfl rfl rfl
    · exact filterTracks_refl A _ _ rfl rfl rfl
    · exact filterTracks_refl A _ _ rfl rfl rfl
  all_goals exact filterTracks_refl A _ _ rfl rfl rfl

theorem processEvent_pulse {F : Type} (A : DoubleArith F) (usecs si : Nat)
    (e : jack_midi_event_t) (s : State F) (h : e.buffer = [248]) :
    processEvent A usecs si e s = clockPulse A usecs si e.time s := by
  obtain ⟨time, buffer⟩ := e
  simp only at h
  subst h
  rfl

theorem processEvents_tracks {F : Type} (A : DoubleArith F) (usecs si : Nat)
    (events : List (Option jack_midi_event_t)) (s : State F) :
    FilterTracks A s (processEvents A usecs si events s) (eventTimes usecs si events) := by
  induction events generalizing s with
  | nil => exact filterTracks_refl A _ _ rfl rfl rfl
  | cons ev rest ih =>
    cases ev with
    | none =>
      simp only [processEvents, List.foldl_cons, eventTimes] at ih ⊢
      exact ih s
    | some e =>
      have hstep : processEvents A usecs si (some e :: rest) s
          = processEvents A usecs si rest (processEvent A usecs si e s) := by
        simp only [processEvents, List.foldl_cons]
      rw [hstep]
      by_cases hb : e.buffer = [248]
      · have ht : eventTimes usecs si (some e :: rest)
            = [absolute_timestamp usecs si e.time] ++ eventTimes usecs si rest := by
          simp only [eventTimes, if_pos hb, List.singleton_append]
        rw [ht, processEvent_pulse A usecs si e s hb]
        exact filterTracks_trans A _ _ _ _ _ (filterTracks_clockPulse A usecs si e.time s)
          (ih _)
      · have ht : eventTimes usecs si (some e :: rest) = [] ++ eventTimes usecs si rest := by
          simp only [eventTimes, if_neg hb, List.nil_append]
        rw [ht]
        exact filterTracks_trans A _ _ _ _ _ (processEvent_filter_frame A usecs si e s hb)
          (ih _)

/-- Over any run of the callback the filter receives, in order, exactly the
tempo samples of the clock pulses delivered. -/
theorem run_tracks {F : Type} (A : DoubleArith F) (calls : List Call) (s : State F) :
    FilterTracks A s (run A calls s) (pulseTimes calls) := by
  induction calls generalizing s with
  | nil => exact filterTracks_refl A _ _ rfl rfl rfl
  | cons c rest ih =>
    have h1 : FilterTracks A s (process A c.usecs c.sample_rate c.nframes c.events s).1
        (eventTimes c.usecs (sample_interval c.sample_rate) c.events) :=
      processEvents_tracks A c.usecs (sample_interval c.sample_rate) c.events s
    have h2 := ih (process A c.usecs c.sample_rate c.nframes c.events s).1
    have := filterTracks_trans A _ _ _ _ _ h1 h2
    simpa only [run, List.foldl_cons, pulseTimes] using this

/-! ## Rounding to binary64 -/

theorem roundHalfEven_eq (x : ℚ) (m : ℤ) (h : |x - m| < 1 / 2) : roundHalfEven x = m := by
  rw [abs_lt] at h
  obtain ⟨h1, h2⟩ := h
  unfold roundHalfEven
  by_cases hm : (m : ℚ) ≤ x
  · have hf : ⌊x⌋ = m := by
      rw [Int.floor_eq_iff]
      constructor <;> linarith
    rw [hf, if_pos (by linarith)]
  · have hf : ⌊x⌋ = m - 1 := by
      rw [Int.floor_eq_iff]
      push_cast
      constructor <;> linarith
    rw [hf]
    push_cast
    rw [if_neg (by linarith), if_pos (by linarith)]
    ring

theorem ulpExp_bounds (q : ℚ) (hq : q ≠ 0) :
    2 ^ 52 * (2 : ℚ) ^ ulpExp q ≤ |q| ∧ |q| < 2 ^ 53 * (2 : ℚ) ^ ulpExp q := by
  have hpos : (0 : ℚ) < |q| := abs_pos.mpr hq
  have a := Int.zpow_log_le_self (by norm_num : 1 < 2) hpos
  have b := Int.lt_zpow_succ_log_self (by norm_num : 1 < 2) |q|
  have e1 : (2 : ℚ) ^ 52 * 2 ^ ulpExp q = ((2 : ℕ) : ℚ) ^ Int.log 2 |q| := by
    have : Int.log 2 |q| = ulpExp q + 52 := by unfold ulpExp; ring
    rw [this, zpow_add₀ (by norm_num)]
    norm_num
    ring
  have e2 : (2 : ℚ) ^ 53 * 2 ^ ulpExp q = ((2 : ℕ) : ℚ) ^ (Int.log 2 |q| + 1) := by
    have : Int.log 2 |q| + 1 = ulpExp q + 53 := by unfold ulpExp; ring
    rw [this, zpow_add₀ (by norm_num)]
    norm_num
    ring
  rw [e1, e2]
  exact ⟨a, b⟩

theorem ulpExp_eq (q : ℚ) (k : ℤ) (h1 : 2 ^ 52 * (2 : ℚ) ^ k ≤ |q|)
    (h2 : |q| < 2 ^ 53 * (2 : ℚ) ^ k) : ulpExp q = k := by
  have hpos : (0 : ℚ) < |q| := lt_of_lt_of_le (by positivity) h1
  have e1 : (2 : ℚ) ^ 52 * 2 ^ k = ((2 : ℕ) : ℚ) ^ (k + 52) := by
    rw [zpow_add₀ (by norm_num)]
    norm_num
    ring
  have e2 : (2 : ℚ) ^ 53 * 2 ^ k = ((2 : ℕ) : ℚ) ^ (k + 53) := by
    rw [zpow_add₀ (by norm_num)]
    norm_num
    ring
  rw [e1] at h1
  rw [e2] at h2
  have a := (Int.zpow_le_iff_le_log (by norm_num : 1 < 2) hpos).mp h1
  have b := (Int.lt_zpow_iff_log_lt (by norm_num : 1 < 2) hpos).mp h2
  unfold ulpExp
  omega

/-- A rounding is determined by an exponent `k` and a significand `m` with
`|q|` in the binade of `k` and `m` the integer nearest `q / 2 ^ k`. -/
theorem roundBinary64_eq (q : ℚ) (k m : ℤ) (h1 : 2 ^ 52 * (2 : ℚ) ^ k ≤ |q|)
    (h2 : |q| < 2 ^ 53 * (2 : ℚ) ^ k) (h3 : |q / 2 ^ k - m| < 1 / 2) :
    roundBinary64 q = m * 2 ^ k := by
  have hpos : (0 : ℚ) < |q| := lt_of_lt_of_le (by positivity) h1
  have hq : q ≠ 0 := abs_pos.mp hpos
  unfold roundBinary64
  rw [if_neg hq, ulpExp_eq q k h1 h2, roundHalfEven_eq _ m h3]

/-- Integers below 2^53 are binary64 numbers. -/
theorem roundBinary64_natCast (n : ℕ) (h : n < 2 ^ 53) : roundBinary64 (n : ℚ) = n := by
  by_cases h0 : n = 0
  · subst h0
    simp [roundBinary64]
  have hq : (n : ℚ) ≠ 0 := by exact_mod_cast h0
  obtain ⟨b1, _⟩ := ulpExp_bounds (n : ℚ) hq
  have hn : |(n : ℚ)| = n := abs_of_nonneg (Nat.cast_nonneg n)
  rw [hn] at b1
  have hlt : (n : ℚ) < 2 ^ 53 := by exact_mod_cast h
  have hk : ulpExp (n : ℚ) ≤ 0 := by
    by_contra hc
    have h1 : (1 : ℤ) ≤ ulpExp (n : ℚ) := by omega
    have h2 : (2 : ℚ) ^ (1 : ℤ) ≤ 2 ^ ulpExp (n : ℚ) := zpow_le_zpow_right₀ (by norm_num) h1
    have h3 : (2 : ℚ) ^ 52 * 2 ^ (1 : ℤ) ≤ 2 ^ 52 * 2 ^ ulpExp (n : ℚ) :=
      mul_le_mul_of_nonneg_left h2 (by positivity)
    norm_num at h3
    linarith
  obtain ⟨j, hj⟩ := Int.exists_eq_neg_ofNat hk
  unfold roundBinary64
  rw [if_neg hq, hj, zpow_neg, zpow_natCast]
  have hr : roundHalfEven ((n : ℚ) / ((2 : ℚ) ^ j)⁻¹) = ((n * 2 ^ j : ℕ) : ℤ) := by
    apply roundHalfEven_eq
    have : (n : ℚ) / ((2 : ℚ) ^ j)⁻¹ - (((n * 2 ^ j : ℕ) : ℤ) : ℚ) = 0 := by
      push_cast
      field_simp
    rw [this]
    norm_num
  rw [hr]
  push_cast
  field_simp

theorem binary64_ofNat (n : ℕ) (h : n < 2 ^ 53) : binary64.ofNat n = (n : ℚ) :=
  roundBinary64_natCast n h

theorem binary64_ofInt (z : ℤ) (h0 : 0 ≤ z) (h : z < 2 ^ 53) : binary64.ofInt z = (z : ℚ) := by
  obtain ⟨n, rfl⟩ := Int.eq_ofNat_of_zero_le h0
  have hn : n < 2 ^ 53 := by exact_mod_cast h
  show roundBinary64 ((n : ℤ) : ℚ) = _
  rw [Int.cast_natCast]
  exact roundBinary64_natCast n hn

/-- The tempo sample of the interval 390625 in binary64: the quotient 153.6 is rounded down, the product with 10 is 63.99999999999999 and `int` gives 63. -/
theorem bpm_binary64_390625 :
    bpm binary64 390625 0 = (7093169413108531 / 1125899906842624 : ℚ) := by
  have i0 : (390625 + 2 ^ 64 - 0) % 2 ^ 64 = 390625 := by norm_num
  have r14 : binary64.div (60000000 : ℚ) (390625 : ℚ) = (5404319552844595 / 35184372088832 : ℚ) := by
    show roundBinary64 _ = _
    rw [roundBinary64_eq _ (-45) 5404319552844595 (by norm_num [abs_of_pos])
      (by norm_num [abs_of_pos]) (by norm_num [abs_lt])]
    norm_num
  have r15 : binary64.div (5404319552844595 / 35184372088832 : ℚ) (24 : ℚ) = (7205759403792793 / 1125899906842624 : ℚ) := by
    show roundBinary64 _ = _
    rw [roundBinary64_eq _ (-50) 7205759403792793 (by norm_num [abs_of_pos])
      (by norm_num [abs_of_pos]) (by norm_num [abs_lt])]
    norm_num
  have r16 : binary64.mul (7205759403792793 / 1125899906842624 : ℚ) (10 : ℚ) = (9007199254740991 / 140737488355328 : ℚ) := by
    show roundBinary64 _ = _
    rw [roundBinary64_eq _ (-47) 9007199254740991 (by norm_num [abs_of_pos])
      (by norm_num [abs_of_pos]) (by norm_num [abs_lt])]
    norm_num
  have r17 : binary64.toInt (9007199254740991 / 140737488355328 : ℚ) = 63 := by
    show truncate _ = _
    unfold truncate
    rw [if_pos (by norm_num), Int.floor_eq_iff]
    norm_num
  have r18 : binary64.div (63 : ℚ) (10 : ℚ) = (7093169413108531 / 1125899906842624 : ℚ) := by
    show roundBinary64 _ = _
    rw [roundBinary64_eq _ (-50) 7093169413108531 (by norm_num [abs_of_pos])
      (by norm_num [abs_of_pos]) (by norm_num [abs_lt])]
    norm_num
  unfold bpm
  rw [i0, binary64_ofNat 60000000 (by norm_num), binary64_ofNat 390625 (by norm_num),
    binary64_ofNat 24 (by norm_num), binary64_ofNat 10 (by norm_num)]
  simp only [Nat.cast_ofNat]
  rw [r14, r15, r16, r17, binary64_ofInt 63 (by norm_num) (by norm_num)]
  simp only [Int.cast_ofNat, Int.cast_one]
  rw [r18]

/-- The average of ten copies of the double nearest 6.3 in binary64. -/
theorem mean_binary64_ten :
    mean binary64 [(7093169413108531 / 1125899906842624 : ℚ), (7093169413108531 / 1125899906842624 : ℚ), (7093169413108531 / 1125899906842624 : ℚ), (7093169413108531 / 1125899906842624 : ℚ), (7093169413108531 / 1125899906842624 : ℚ), (7093169413108531 / 1125899906842624 : ℚ), (7093169413108531 / 1125899906842624 : ℚ), (7093169413108531 / 1125899906842624 : ℚ), (7093169413108531 / 1125899906842624 : ℚ), (7093169413108531 / 1125899906842624 : ℚ)]
      = (3546584706554265 / 562949953421312 : ℚ) := by
  have r19 : binary64.add (0 : ℚ) (7093169413108531 / 1125899906842624 : ℚ) = (7093169413108531 / 1125899906842624 : ℚ) := by
    show roundBinary64 _ = _
    rw [roundBinary64_eq _ (-50) 7093169413108531 (by norm_num [abs_of_pos])
      (by norm_num [abs_of_pos]) (by norm_num [abs_lt])]
    norm_num
  have r20 : binary64.add (7093169413108531 / 1125899906842624 : ℚ) (7093169413108531 / 1125899906842624 : ℚ) = (7093169413108531 / 562949953421312 : ℚ) := by
    show roundBinary64 _ = _
    rw [roundBinary64_eq _ (-49) 7093169413108531 (by norm_num [abs_of_pos])
      (by norm_num [abs_of_pos]) (by norm_num [abs_lt])]
    norm_num
  have r21 : binary64.add (7093169413108531 / 562949953421312 : ℚ) (7093169413108531 / 1125899906842624 : ℚ) = (2659938529915699 / 140737488355328 : ℚ) := by
    show roundBinary64 _ = _
    rw [roundBinary64_eq _ (-48) 5319877059831398 (by norm_num [abs_of_pos])
      (by norm_num [abs_of_pos]) (by norm_num [abs_lt])]
    norm_num
  have r22 : binary64.add (2659938529915699 / 140737488355328 : ℚ) (7093169413108531 / 1125899906842624 : ℚ) = (7093169413108531 / 281474976710656 : ℚ) := by
    show roundBinary64 _ = _
    rw [roundBinary64_eq _ (-48) 7093169413108531 (by norm_num [abs_of_pos])
      (by norm_num [abs_of_pos]) (by norm_num [abs_lt])]
    norm_num
  have r23 : binary64.add (7093169413108531 / 281474976710656 : ℚ) (7093169413108531 / 1125899906842624 : ℚ) = (63 / 2 : ℚ) := by
    show roundBinary64 _ = _
    rw [roundBinary64_eq _ (-48) 8866461766385664 (by norm_num [abs_of_pos])
      (by norm_num [abs_of_pos]) (by norm_num [abs_lt])]
    norm_num
  have r24 : binary64.add (63 / 2 : ℚ) (7093169413108531 / 1125899906842624 : ℚ) = (2659938529915699 / 70368744177664 : ℚ) := by
    show roundBinary64 _ = _
    rw [roundBinary64_eq _ (-47) 5319877059831398 (by norm_num [abs_of_pos])
      (by norm_num [abs_of_pos]) (by norm_num [abs_lt])]
    norm_num
  have r25 : binary64.add (2659938529915699 / 70368744177664 : ℚ) (7093169413108531 / 1125899906842624 : ℚ) = (1551630809117491 / 35184372088832 : ℚ) := by
    show roundBinary64 _ = _
    rw [roundBinary64_eq _ (-47) 6206523236469964 (by norm_num [abs_of_pos])
      (by norm_num [abs_of_pos]) (by norm_num [abs_lt])]
    norm_num
  have r26 : binary64.add (1551630809117491 / 35184372088832 : ℚ) (7093169413108531 / 1125899906842624 : ℚ) = (3546584706554265 / 70368744177664 : ℚ) := by
    show roundBinary64 _ = _
    rw [roundBinary64_eq _ (-47) 7093169413108530 (by norm_num [abs_of_pos])
      (by norm_num [abs_of_pos]) (by norm_num [abs_lt])]
    norm_num
  have r27 : binary64.add (3546584706554265 / 70368744177664 : ℚ) (7093169413108531 / 1125899906842624 : ℚ) = (997476948718387 / 17592186044416 : ℚ) := by
    show roundBinary64 _ = _
    rw [roundBinary64_eq _ (-47) 7979815589747096 (by norm_num [abs_of_pos])
      (by norm_num [abs_of_pos]) (by norm_num [abs_lt])]
    norm_num
  have r28 : binary64.add (997476948718387 / 17592186044416 : ℚ) (7093169413108531 / 1125899906842624 : ℚ) = (4433230883192831 / 70368744177664 : ℚ) := by
    show roundBinary64 _ = _
    rw [roundBinary64_eq _ (-47) 8866461766385662 (by norm_num [abs_of_pos])
      (by norm_num [abs_of_pos]) (by norm_num [abs_lt])]
    norm_num
  have r29 : binary64.div (4433230883192831 / 70368744177664 : ℚ) (10 : ℚ) = (3546584706554265 / 562949953421312 : ℚ) := by
    show roundBinary64 _ = _
    rw [roundBinary64_eq _ (-50) 7093169413108530 (by norm_num [abs_of_pos])
      (by norm_num [abs_of_pos]) (by norm_num [abs_lt])]
    norm_num
  unfold mean
  simp only [List.foldl_cons, List.foldl_nil, List.length_cons, List.length_nil]
  rw [binary64_ofNat 0 (by norm_num), binary64_ofNat _ (by norm_num)]
  simp only [Nat.cast_ofNat, Nat.cast_zero, zero_add]
  norm_num only
  rw [r19, r20, r21, r22, r23, r24, r25, r26, r27, r28, r29]

/-! ## Error bounds for binary64 -/

theorem roundHalfEven_error (x : ℚ) : |(roundHalfEven x : ℚ) - x| ≤ 1 / 2 := by
  have h1 := Int.floor_le x
  have h2 := Int.lt_floor_add_one x
  unfold roundHalfEven
  rw [abs_le]
  split
  · constructor <;> linarith
  · split
    · push_cast
      constructor <;> linarith
    · split
      · constructor <;> linarith
      · push_cast
        constructor <;> linarith

/-- A rounding to binary64 changes a value by at most 2^-53 of its size. -/
theorem roundBinary64_error (q : ℚ) : |roundBinary64 q - q| ≤ |q| / 2 ^ 53 := by
  by_cases hq : q = 0
  · subst hq
    simp [roundBinary64]
  obtain ⟨b1, _⟩ := ulpExp_bounds q hq
  have hp : (0 : ℚ) < 2 ^ ulpExp q := by positivity
  have hr := roundHalfEven_error (q / 2 ^ ulpExp q)
  have e : roundBinary64 q - q
      = ((roundHalfEven (q / 2 ^ ulpExp q) : ℚ) - q / 2 ^ ulpExp q) * 2 ^ ulpExp q := by
    unfold roundBinary64
    rw [if_neg hq]
    field_simp
  rw [e, abs_mul, abs_of_pos hp]
  calc |(roundHalfEven (q / 2 ^ ulpExp q) : ℚ) - q / 2 ^ ulpExp q| * 2 ^ ulpExp q
      ≤ 1 / 2 * 2 ^ ulpExp q := mul_le_mul_of_nonneg_right hr (le_of_lt hp)
    _ = 2 ^ 52 * 2 ^ ulpExp q / 2 ^ 53 := by norm_num; ring
    _ ≤ |q| / 2 ^ 53 := div_le_div_of_nonneg_right b1 (by positivity)

theorem roundBinary64_bounds (q : ℚ) (h : 0 ≤ q) :
    q * (1 - relUnit / 2) ≤ roundBinary64 q ∧ roundBinary64 q ≤ q * (1 + relUnit / 2) := by
  have he := roundBinary64_error q
  rw [abs_of_nonneg h, abs_le] at he
  obtain ⟨h1, h2⟩ := he
  have e : q / 2 ^ 53 = q * (relUnit / 2) := by
    unfold relUnit
    norm_num
    ring
  rw [e] at h1 h2
  constructor <;> linarith

theorem near_nonneg (y q k : ℚ) (hy : 0 ≤ y) (hk : k ≤ 1000) (h : Near y q k) : 0 ≤ q := by
  have h1 : 0 ≤ 1 - k * relUnit := by
    unfold relUnit
    norm_num
    linarith
  exact le_trans (mul_nonneg hy h1) h.1

theorem near_refl (y : ℚ) : Near y y 0 := by
  unfold Near
  constructor <;> simp

theorem near_mono (y q k k1 : ℚ) (hy : 0 ≤ y) (hk : k ≤ k1) (h : Near y q k) : Near y q k1 := by
  obtain ⟨h1, h2⟩ := h
  have hu : (0 : ℚ) ≤ relUnit := by unfold relUnit; positivity
  have hm : y * (k * relUnit) ≤ y * (k1 * relUnit) :=
    mul_le_mul_of_nonneg_left (mul_le_mul_of_nonneg_right hk hu) hy
  constructor <;> linarith

/-- A rounding adds one unit to the relative distance. -/
theorem near_round (y q k : ℚ) (hy : 0 ≤ y) (hk0 : 0 ≤ k) (hk : k ≤ 1000) (h : Near y q k) :
    Near y (roundBinary64 q) (k + 1) := by
  have hq := near_nonneg y q k hy hk h
  obtain ⟨r1, r2⟩ := roundBinary64_bounds q hq
  obtain ⟨h1, h2⟩ := h
  have hu : (0 : ℚ) ≤ relUnit := by unfold relUnit; positivity
  have hs : 0 ≤ 1 - k * relUnit := by
    unfold relUnit
    norm_num
    linarith
  have hs2 : (0 : ℚ) ≤ 1 - relUnit / 2 := by unfold relUnit; norm_num
  have hs3 : (0 : ℚ) ≤ 1 + relUnit / 2 := by linarith
  constructor
  · have a1 : y * (1 - k * relUnit) * (1 - relUnit / 2) ≤ q * (1 - relUnit / 2) :=
      mul_le_mul_of_nonneg_right h1 hs2
    have a2 : y * (1 - k * relUnit) * (1 - relUnit / 2) - y * (1 - (k + 1) * relUnit)
        = y * (relUnit / 2 * (1 + k * relUnit)) := by ring
    have a3 : 0 ≤ y * (relUnit / 2 * (1 + k * relUnit)) := by positivity
    linarith
  · have a1 : q * (1 + relUnit / 2) ≤ y * (1 + k * relUnit) * (1 + relUnit / 2) :=
      mul_le_mul_of_nonneg_right h2 hs3
    have a2 : y * (1 + (k + 1) * relUnit) - y * (1 + k * relUnit) * (1 + relUnit / 2)
        = y * (relUnit / 2 * (1 - k * relUnit)) := by ring
    have a3 : 0 ≤ y * (relUnit / 2 * (1 - k * relUnit)) := by positivity
    linarith

theorem near_add (y1 y2 q1 q2 k : ℚ) (h1 : Near y1 q1 k) (h2 : Near y2 q2 k) :
    Near (y1 + y2) (q1 + q2) k := by
  obtain ⟨a1, a2⟩ := h1
  obtain ⟨b1, b2⟩ := h2
  constructor
  · calc (y1 + y2) * (1 - k * relUnit) = y1 * (1 - k * relUnit) + y2 * (1 - k * relUnit) := by
          ring
      _ ≤ q1 + q2 := add_le_add a1 b1
  · calc q1 + q2 ≤ y1 * (1 + k * relUnit) + y2 * (1 + k * relUnit) := add_le_add a2 b2
      _ = (y1 + y2) * (1 + k * relUnit) := by ring

theorem near_div (y q k c : ℚ) (hc : 0 < c) (h : Near y q k) : Near (y / c) (q / c) k := by
  obtain ⟨a1, a2⟩ := h
  constructor
  · calc y / c * (1 - k * relUnit) = y * (1 - k * relUnit) / c := by ring
      _ ≤ q / c := div_le_div_of_nonneg_right a1 (le_of_lt hc)
  · calc q / c ≤ y * (1 + k * relUnit) / c := div_le_div_of_nonneg_right a2 (le_of_lt hc)
      _ = y / c * (1 + k * relUnit) := by ring

theorem near_mul (y q k c : ℚ) (hc : 0 < c) (h : Near y q k) : Near (y * c) (q * c) k := by
  obtain ⟨a1, a2⟩ := h
  constructor
  · calc y * c * (1 - k * relUnit) = y * (1 - k * relUnit) * c := by ring
      _ ≤ q * c := mul_le_mul_of_nonneg_right a1 (le_of_lt hc)
  · calc q * c ≤ y * (1 + k * relUnit) * c := mul_le_mul_of_nonneg_right a2 (le_of_lt hc)
      _ = y * c * (1 + k * relUnit) := by ring

/-- Dividing a constant by a value within one unit of `y` gives a value within
two units of the quotient by `y`. -/
theorem near_const_div (c y q : ℚ) (hc : 0 ≤ c) (hy : 0 < y) (h : Near y q 1) :
    Near (c / y) (c / q) 2 := by
  obtain ⟨a1, a2⟩ := h
  have hu : (0 : ℚ) < relUnit := by unfold relUnit; positivity
  have hu1 : relUnit < 1 / 4 := by unfold relUnit; norm_num
  have hl : 0 < y * (1 - 1 * relUnit) := mul_pos hy (by linarith)
  have hq : 0 < q := lt_of_lt_of_le hl a1
  constructor
  · rw [div_mul_eq_mul_div, div_le_div_iff₀ hy hq]
    have : c * (1 - 2 * relUnit) * q ≤ c * (1 - 2 * relUnit) * (y * (1 + 1 * relUnit)) :=
      mul_le_mul_of_nonneg_left a2 (mul_nonneg hc (by linarith))
    have e : c * y - c * (1 - 2 * relUnit) * (y * (1 + 1 * relUnit))
        = c * y * (relUnit * (1 + 2 * relUnit)) := by ring
    have : 0 ≤ c * y * (relUnit * (1 + 2 * relUnit)) := by positivity
    linarith
  · rw [div_mul_eq_mul_div, div_le_div_iff₀ hq hy]
    have : c * (1 + 2 * relUnit) * (y * (1 - 1 * relUnit)) ≤ c * (1 + 2 * relUnit) * q :=
      mul_le_mul_of_nonneg_left a1 (mul_nonneg hc (by linarith))
    have e : c * (1 + 2 * relUnit) * (y * (1 - 1 * relUnit)) - c * y
        = c * y * (relUnit * (1 - 2 * relUnit)) := by ring
    have : 0 ≤ c * y * (relUnit * (1 - 2 * relUnit)) :=
      mul_nonneg (mul_nonneg hc (le_of_lt hy)) (mul_nonneg (le_of_lt hu) (by linarith))
    linarith

theorem near_zero (k : ℚ) : Near 0 0 k := by
  unfold Near
  constructor <;> simp

/-- Accumulating `n` copies of a value near `s0` adds `n * s0` and at most one
unit per addition. -/
theorem foldl_add_near (s0 s : ℚ) (hs0 : 0 ≤ s0) (n : ℕ) (k y z : ℚ) (hk0 : 0 ≤ k)
    (hk : k + n ≤ 1000) (hy : 0 ≤ y) (hz : Near y z k) (hs : Near s0 s k) :
    Near (y + n * s0) (List.foldl binary64.add z (List.replicate n s)) (k + n) := by
  induction n generalizing k y z with
  | zero => simpa using hz
  | succ m ih =>
    have hkm : k + 1 + (m : ℚ) ≤ 1000 := by
      push_cast at hk
      linarith
    have hk1 : k ≤ 1000 := by
      have : (0 : ℚ) ≤ (m : ℚ) := Nat.cast_nonneg m
      linarith
    have hsum : Near (y + s0) (z + s) k := near_add y s0 z s k hz hs
    have hr : Near (y + s0) (roundBinary64 (z + s)) (k + 1) :=
      near_round (y + s0) (z + s) k (by linarith) hk0 hk1 hsum
    have hs1 : Near s0 s (k + 1) := near_mono s0 s k (k + 1) hs0 (by linarith) hs
    have := ih (k + 1) (y + s0) (roundBinary64 (z + s)) (by linarith) hkm (by linarith) hr hs1
    have e : y + s0 + (m : ℚ) * s0 = y + ((m + 1 : ℕ) : ℚ) * s0 := by
      push_cast
      ring
    have e2 : k + 1 + (m : ℚ) = k + ((m + 1 : ℕ) : ℚ) := by
      push_cast
      ring
    rw [e, e2] at this
    exact this

theorem truncate_bounds (c : ℚ) (hc : 0 ≤ c) :
    (0 : ℚ) ≤ (truncate c : ℚ) ∧ (truncate c : ℚ) ≤ c ∧ c - 1 < (truncate c : ℚ) := by
  unfold truncate
  rw [if_pos hc]
  have h1 := Int.floor_le c
  have h2 := Int.lt_floor_add_one c
  have h3 : (0 : ℤ) ≤ ⌊c⌋ := Int.floor_nonneg.mpr hc
  refine ⟨by exact_mod_cast h3, h1, by linarith⟩

/-- In binary64 the average of ten copies of the tempo sample of the interval
`D` is at most 10^-6 above 60000000 / D / 24 and less than 0.1 + 10^-6 below
it. -/
theorem mean_bpm_binary64_bounds (D : ℕ) (hD : 0 < D) (hlt : D < 2 ^ 64) :
    mean binary64 (List.replicate 10 (bpm binary64 D 0)) - (60000000 : ℚ) / (D : ℚ) / 24
      < 1 / 10 ^ 6 ∧
    (60000000 : ℚ) / (D : ℚ) / 24 - mean binary64 (List.replicate 10 (bpm binary64 D 0))
      < 1 / 10 + 1 / 10 ^ 6 := by
  have hDq : (0 : ℚ) < (D : ℚ) := by exact_mod_cast hD
  have hD1 : (1 : ℚ) ≤ (D : ℚ) := by exact_mod_cast hD
  have e : (D + 2 ^ 64 - 0) % 2 ^ 64 = D := by
    norm_num at hlt ⊢
    omega
  -- the conversion of the interval and the three operations before `int`
  have n0 : Near (D : ℚ) (roundBinary64 (D : ℚ)) 1 := by
    have := near_round (D : ℚ) (D : ℚ) 0 (le_of_lt hDq) le_rfl (by norm_num) (near_refl _)
    rwa [zero_add] at this
  have n1 : Near ((60000000 : ℚ) / (D : ℚ)) (60000000 / roundBinary64 (D : ℚ)) 2 :=
    near_const_div 60000000 (D : ℚ) _ (by norm_num) hDq n0
  have n2 := near_round _ _ 2 (by positivity) (by norm_num) (by norm_num) n1
  have n3 := near_div _ _ _ 24 (by norm_num) n2
  have n4 := near_round _ _ (2 + 1) (by positivity) (by norm_num) (by norm_num) n3
  have n5 := near_mul _ _ _ 10 (by norm_num) n4
  have n6 := near_round _ _ (2 + 1 + 1) (by positivity) (by norm_num) (by norm_num) n5
  set c := roundBinary64 (roundBinary64 (roundBinary64 (60000000 / roundBinary64 (D : ℚ)) / 24)
    * 10) with hcd
  have hc := near_nonneg _ _ _ (by positivity) (by norm_num) n6
  obtain ⟨t0, t1, t2⟩ := truncate_bounds c hc
  -- the conversion back, the division by 10. and the average of ten copies
  have m0 := near_round _ _ 0 t0 le_rfl (by norm_num) (near_refl _)
  have m1 := near_div _ _ _ 10 (by norm_num) m0
  have ht10 : (0 : ℚ) ≤ (truncate c : ℚ) / 10 := div_nonneg t0 (by norm_num)
  have m2 := near_round _ _ (0 + 1) ht10 (by norm_num) (by norm_num) m1
  have m3 := foldl_add_near _ _ ht10 10 (0 + 1 + 1) 0 0 (by norm_num) (by norm_num) le_rfl
    (near_zero _) m2
  have m4 := near_div _ _ _ 10 (by norm_num) m3
  have m5 := near_round _ _ _ (by positivity) (by norm_num) (by norm_num) m4
  have c60 : binary64.ofNat 60000000 = (60000000 : ℚ) := by
    rw [binary64_ofNat _ (by norm_num)]
    norm_num
  have c24 : binary64.ofNat 24 = (24 : ℚ) := by
    rw [binary64_ofNat _ (by norm_num)]
    norm_num
  have c10 : binary64.ofNat 10 = (10 : ℚ) := by
    rw [binary64_ofNat _ (by norm_num)]
    norm_num
  have c0 : binary64.ofNat 0 = (0 : ℚ) := by
    rw [binary64_ofNat _ (by norm_num)]
    norm_num
  have key : Near ((0 + ((10 : ℕ) : ℚ) * ((truncate c : ℚ) / 10)) / 10)
      (mean binary64 (List.replicate 10 (bpm binary64 D 0)))
      (0 + 1 + 1 + ((10 : ℕ) : ℚ) + 1) := by
    unfold mean bpm
    rw [e, List.length_replicate, c60, c24, c10, c0]
    exact m5
  obtain ⟨u1, u2⟩ := key
  obtain ⟨c1, c2⟩ := n6
  have hB : (60000000 : ℚ) / (D : ℚ) / 24 ≤ 2500000 := by
    rw [div_div, div_le_iff₀ (by positivity)]
    nlinarith
  have hB0 : (0 : ℚ) ≤ (60000000 : ℚ) / (D : ℚ) / 24 := by positivity
  unfold relUnit at u1 u2 c1 c2
  norm_num at u1 u2 c1 c2 ⊢
  constructor <;> linarith

theorem bpm_step {F : Type} (A : DoubleArith F) (t D : Nat) (h : t + D < 2 ^ 64) :
    bpm A (t + D) t = bpm A D 0 := by
  have e1 : (t + D + 2 ^ 64 - t) % 2 ^ 64 = D := by
    norm_num at h ⊢
    omega
  have e2 : (D + 2 ^ 64 - 0) % 2 ^ 64 = D := by
    norm_num at h ⊢
    omega
  unfold bpm
  rw [e1, e2]

theorem tempoSamples_steady {F : Type} (A : DoubleArith F) (t0 D n : Nat)
    (h : t0 + n * D < 2 ^ 64) :
    tempoSamples A t0 (steadyTimes (t0 + D) D n) = List.replicate n (bpm A D 0) := by
  induction n generalizing t0 with
  | zero => rfl
  | succ k ih =>
    have hb : t0 + D + k * D < 2 ^ 64 := by
      rw [Nat.succ_mul] at h
      omega
    have hd : t0 + D < 2 ^ 64 := by omega
    show bpm A (t0 + D) t0 :: tempoSamples A (t0 + D) (steadyTimes (t0 + D + D) D k) = _
    rw [ih (t0 + D) hb, bpm_step A t0 D hd]
    rfl

/-- Once the last eleven clock pulses are `D` apart, the filter holds ten
copies of the tempo sample of the interval `D` and the published tempo is
their average. -/
theorem run_steady {F : Type} (A : DoubleArith F) (calls : List Call) (s : State F)
    (pre : List Nat) (t0 D : Nat) (hw : s.bpmBuffer.WF)
    (ht : pulseTimes calls = pre ++ steadyTimes t0 D 11) (hb : t0 + 10 * D < 2 ^ 64) :
    (run A calls s).bpmBuffer.toList = List.replicate 10 (bpm A D 0) ∧
    (run A calls s).beats_per_minute = mean A (List.replicate 10 (bpm A D 0)) := by
  obtain ⟨h1, _, h3⟩ := run_tracks A calls s
  have hne : pulseTimes calls ≠ [] := by
    rw [ht]
    simp [steadyTimes]
  rw [if_neg hne] at h3
  have hsplit : tempoSamples A s.lastClock (pulseTimes calls)
      = (tempoSamples A s.lastClock pre ++ [bpm A t0 (lastTime s.lastClock pre)])
          ++ List.replicate 10 (bpm A D 0) := by
    rw [ht, tempoSamples_append]
    show _ ++ bpm A t0 (lastTime s.lastClock pre)
        :: tempoSamples A t0 (steadyTimes (t0 + D) D 10) = _
    rw [tempoSamples_steady A t0 D 10 hb, List.append_assoc]
    rfl
  obtain ⟨hw1, _, hl⟩ := ring_buffer.toList_foldl_push_back_wf s.bpmBuffer hw
    (tempoSamples A s.lastClock (pulseTimes calls))
  rw [← h1] at hw1 hl
  have e : (run A calls s).bpmBuffer.toList = List.replicate 10 (bpm A D 0) := by
    rw [hl, hsplit, ← List.append_assoc]
    have hcap : ring_buffer.capacity = (List.replicate 10 (bpm A D 0)).length := by
      rw [List.length_replicate]
      rfl
    rw [hcap, lastN_append_length]
  refine ⟨e, ?_⟩
  rw [h3, average_eq_mean A _ hw1, e]

theorem toInt_exactArith (q : ℚ) (h : 0 ≤ q) : exactArith.toInt q = ⌊q⌋ := by
  show Int.tdiv q.num q.den = ⌊q⌋
  rw [Rat.floor_def, Int.tdiv_eq_ediv (Rat.num_nonneg.mpr h) (Int.natCast_nonneg _)]

/-- In exact arithmetic the tempo sample of the interval `D` is
60000000 / D / 24 truncated to one decimal place. -/
theorem bpm_exactArith (D : Nat) (h : D < 2 ^ 64) :
    bpm exactArith D 0 = ((⌊(60000000 : ℚ) / (D : ℚ) / 24 * 10⌋ : ℤ) : ℚ) / 10 := by
  have e : (D + 2 ^ 64 - 0) % 2 ^ 64 = D := by
    norm_num at h ⊢
    omega
  have hnn : (0 : ℚ) ≤ (60000000 : ℚ) / (D : ℚ) / 24 * 10 := by positivity
  unfold bpm
  rw [e]
  show ((exactArith.toInt ((((60000000 : ℕ) : ℚ) / (D : ℚ)) / ((24 : ℕ) : ℚ)
    * ((10 : ℕ) : ℚ)) : ℤ) : ℚ) / ((10 : ℕ) : ℚ) = _
  simp only [Nat.cast_ofNat]
  rw [toInt_exactArith _ hnn]

theorem mean_exactArith_replicate (b : ℚ) : mean exactArith (List.replicate 10 b) = b := by
  rw [mean_exactArith, List.sum_replicate, List.length_replicate]
  simp only [nsmul_eq_mul, Nat.cast_ofNat]
  field_simp

/-! ## C4: the moving average -/

/-- C5 (amended): for a constant interval D with 0 < D, once the last eleven
clock pulses processed have timestamps exactly D apart, the filter holds ten
copies of the tempo sample int(60000000./D / 24 * 10) / 10. and the smoothed
tempo is their sum accumulated from 0. and divided by 10, all in the
arithmetic of `double`.  In exact arithmetic this is 60000000 / D / 24
truncated toward zero to one decimal place, less than 0.1 below
60000000 / D / 24.  In binary64 it is less than 10^-6 above and less than
0.1 + 10^-6 below 60000000 / D / 24. -/
theorem steady_tempo_estimate {F : Type} (A : DoubleArith F) (calls : List Call)
    (s : State F) (pre : List Nat) (t0 D : Nat) (hw : s.bpmBuffer.WF) (hD : 0 < D)
    (ht : pulseTimes calls = pre ++ steadyTimes t0 D 11) (hb : t0 + 10 * D < 2 ^ 64) :
    (run A calls s).bpmBuffer.toList = List.replicate 10 (bpm A D 0) ∧
    (run A calls s).beats_per_minute
      = A.div ((List.replicate 10 (bpm A D 0)).foldl A.add (A.ofNat 0)) (A.ofNat 10) ∧
    (∀ (q : State ℚ), q.bpmBuffer.WF →
      (run exactArith calls q).beats_per_minute
          = ((⌊(60000000 : ℚ) / (D : ℚ) / 24 * 10⌋ : ℤ) : ℚ) / 10 ∧
      (run exactArith calls q).beats_per_minute ≤ (60000000 : ℚ) / (D : ℚ) / 24 ∧
      (60000000 : ℚ) / (D : ℚ) / 24 - (run exactArith calls q).beats_per_minute < 1 / 10) ∧
    (∀ (q : State ℚ), q.bpmBuffer.WF →
      (run binary64 calls q).beats_per_minute - (60000000 : ℚ) / (D : ℚ) / 24 < 1 / 10 ^ 6 ∧
      (60000000 : ℚ) / (D : ℚ) / 24 - (run binary64 calls q).beats_per_minute
        < 1 / 10 + 1 / 10 ^ 6) := by
  obtain ⟨h1, h2⟩ := run_steady A calls s pre t0 D hw ht hb
  have hlt : D < 2 ^ 64 := by omega
  refine ⟨h1, ?_, fun q hq => ?_, fun q hq => ?_⟩
  rotate_left 2
  · obtain ⟨_, g2⟩ := run_steady binary64 calls q pre t0 D hq ht hb
    rw [g2]
    exact mean_bpm_binary64_bounds D hD hlt
  · rw [h2]
    unfold mean
    rw [List.length_replicate]
  · obtain ⟨_, g2⟩ := run_steady exactArith calls q pre t0 D hq ht hb
    have hv : (run exactArith calls q).beats_per_minute
        = ((⌊(60000000 : ℚ) / (D : ℚ) / 24 * 10⌋ : ℤ) : ℚ) / 10 := by
      rw [g2, mean_exactArith_replicate, bpm_exactArith D hlt]
    have f1 := Int.floor_le ((60000000 : ℚ) / (D : ℚ) / 24 * 10)
    have f2 := Int.lt_floor_add_one ((60000000 : ℚ) / (D : ℚ) / 24 * 10)
    rw [hv]
    refine ⟨rfl, ?_, ?_⟩ <;> linarith

theorem pulseTimes_steadyTrain_20833 :
    pulseTimes (steadyTrain 20833 11) = [] ++ steadyTimes 20833 20833 11 := by
  decide

theorem pulseTimes_steadyTrain_390625 :
    pulseTimes (steadyTrain 390625 11) = [] ++ steadyTimes 390625 390625 11 := by
  decide

/-- Witness for C5: eleven clock pulses 20833 microseconds apart from the
initial state; in exact arithmetic the tempo is floor(1200.019...) / 10. -/
theorem steady_tempo_estimate_witness :
    (run exactArith (steadyTrain 20833 11) (State.init exactArith)).beats_per_minute
      = ((⌊(60000000 : ℚ) / ((20833 : ℕ) : ℚ) / 24 * 10⌋ : ℤ) : ℚ) / 10 :=
  ((steady_tempo_estimate exactArith (steadyTrain 20833 11) (State.init exactArith) []
    20833 20833 (ring_buffer.wf_empty _) (by decide) pulseTimes_steadyTrain_20833
    (by decide)).2.2.1 (State.init exactArith) (ring_buffer.wf_empty _)).1

/-- C5 as stated fails in binary64: after eleven clock pulses 390625
microseconds apart the smoothed tempo is 6.2999999999999989, not
60000000 / 390625 / 24 = 6.4, and lies more than 0.1 below it. -/
theorem steady_tempo_estimate_counterexample :
    pulseTimes (steadyTrain 390625 11) = steadyTimes 390625 390625 11 ∧
    (run binary64 (steadyTrain 390625 11) (State.init binary64)).beats_per_minute
      = 3546584706554265 / 562949953421312 ∧
    (60000000 : ℚ) / 390625 / 24 = 64 / 10 ∧
    (3546584706554265 / 562949953421312 : ℚ) ≠ 64 / 10 ∧
    (1 / 10 : ℚ) < 60000000 / 390625 / 24 - 3546584706554265 / 562949953421312 := by
  obtain ⟨_, h2⟩ := run_steady binary64 (steadyTrain 390625 11) (State.init binary64) []
    390625 390625 (ring_buffer.wf_empty _) pulseTimes_steadyTrain_390625 (by decide)
  refine ⟨pulseTimes_steadyTrain_390625, ?_, by norm_num, by norm_num, by norm_num⟩
  rw [h2, bpm_binary64_390625]
  exact mean_binary64_ten

end JackMidiClockInput
